import Mathlib

/-!
# Verification of `pauli_string.py` (PauliString / LinearCombinaisonPauliString)

Shallow embedding of the repository's single source file `pauli_string.py`.
Conventions of the embedding:

* numpy boolean arrays become `List Bool` (index 0 = least-significant qubit,
  exactly as in the source);
* complex scalars (numpy `complex`) are modelled exactly as Gaussian integers
  `Cplx` (real and imaginary part in `ℤ`): every concrete scalar reached by the
  claims (coefficients 1, 2, 3, … and the phases `±1`, `±i`) is such a number,
  so no floating-point rounding is involved, and the general theorems are
  parametric in the coefficient values;
* a Python function that can `raise` is embedded as a function into `Option`
  (`none` = the call raises);
* `np.unique(..., axis=0)` (sort the rows lexicographically, drop duplicates)
  is embedded as `List.insertionSort` by the row order followed by
  `List.dedup`; since duplicate rows are *equal* lists, the sorted
  deduplicated row list is uniquely determined, so any correct sorting
  algorithm models `np.unique` exactly;
* `np.argsort` over keys (in `sort`) is modelled by a stable sort of the
  (coef, pauli) pairs by key; on distinct keys — the only situation the
  claims exercise — every correct sort returns the same permutation.
-/

/-! ## Definitions -/

/-- Exact complex scalars: Gaussian integers, modelling the numpy `complex`
coefficients and phases of the source (all concrete values reached by the
claims are exact Gaussian integers). -/
structure Cplx where
  re : ℤ
  im : ℤ
deriving DecidableEq, Repr

def Cplx.add (a b : Cplx) : Cplx := ⟨a.re + b.re, a.im + b.im⟩

def Cplx.mul (a b : Cplx) : Cplx := ⟨a.re * b.re - a.im * b.im, a.re * b.im + a.im * b.re⟩

def Cplx.neg (a : Cplx) : Cplx := ⟨-a.re, -a.im⟩

instance : Add Cplx := ⟨Cplx.add⟩

instance : Mul Cplx := ⟨Cplx.mul⟩

instance : Neg Cplx := ⟨Cplx.neg⟩

instance (n : ℕ) : OfNat Cplx n := ⟨⟨(n : ℤ), 0⟩⟩

/-- The imaginary unit `1j`. -/
def Cplx.I : Cplx := ⟨0, 1⟩

/-- Power of a complex scalar with a natural exponent (`(-1j)**w` in the source). -/
def Cplx.cpow (z : Cplx) : ℕ → Cplx
  | 0 => 1
  | n + 1 => z * Cplx.cpow z n

/-- Python's `sum` over a list of complex scalars: a left fold starting at `0`. -/
def sumC (l : List Cplx) : Cplx := l.foldl (· + ·) 0

/-- `PauliString.__init__` stores the two boolean arrays (`z_bits`, `x_bits`);
index 0 is the least-significant qubit.  The constructor's length check is
the predicate `PauliString.wf`. -/
structure PauliString where
  z_bits : List Bool
  x_bits : List Bool
deriving DecidableEq, Repr

/-- The `PauliString` constructor's validation:
`len(z_bits) == len(x_bits)`. -/
def PauliString.wf (p : PauliString) : Prop := p.z_bits.length = p.x_bits.length

instance (p : PauliString) : Decidable p.wf := by
  unfold PauliString.wf
  infer_instance

/-- `PauliString.__len__`: `len(self.z_bits)`. -/
def PauliString.length (p : PauliString) : ℕ := p.z_bits.length

/-- `PauliString.to_zx_bits`: `np.concatenate((self.z_bits, self.x_bits))`. -/
def PauliString.to_zx_bits (p : PauliString) : List Bool := p.z_bits ++ p.x_bits

/-- `PauliString.from_zx_bits`: `z_bits = zx_bits[:len(zx_bits)//2]`,
`x_bits = zx_bits[len(zx_bits)//2:]`. -/
def PauliString.from_zx_bits (zx_bits : List Bool) : PauliString :=
  ⟨zx_bits.take (zx_bits.length / 2), zx_bits.drop (zx_bits.length / 2)⟩

/-- `np.sum(np.logical_and(a, b))`: the number of positions where both
boolean vectors are `True`. -/
def andCount (a b : List Bool) : ℕ := (List.zipWith (· && ·) a b).count true

/-- The spec's phase map: `(-1j)**w` with the exponent reduced mod 4
(Python's `%` on a possibly negative integer returns a value in `[0, 4)`,
which is `Int.emod` for a positive modulus). -/
def phaseOfW (w : ℤ) : Cplx := Cplx.cpow (-Cplx.I) ((w % 4).toNat)

/-- Body of `PauliString.mul_pauli_string` once the length guard has passed:
`new_z = z1 xor z2`, `new_x = x1 xor x2`,
`w = (2·Σ(z2·x1) + Σ(z1·x1) + Σ(z2·x2) − Σ(new_z·new_x)) % 4`,
`phase = (-1j)**w`. -/
def PauliString.mul_body (p other : PauliString) : PauliString × Cplx :=
  let new_z_bits := List.zipWith Bool.xor p.z_bits other.z_bits
  let new_x_bits := List.zipWith Bool.xor p.x_bits other.x_bits
  let w : ℤ := (2 * (andCount other.z_bits p.x_bits : ℤ) + (andCount p.z_bits p.x_bits : ℤ)
      + (andCount other.z_bits other.x_bits : ℤ) - (andCount new_z_bits new_x_bits : ℤ)) % 4
  (⟨new_z_bits, new_x_bits⟩, Cplx.cpow (-Cplx.I) w.toNat)

/-- `PauliString.mul_pauli_string`: raises `ValueError` when the lengths
differ, otherwise returns the product string and the phase. -/
def PauliString.mul_pauli_string (p other : PauliString) : Option (PauliString × Cplx) :=
  if p.length ≠ other.length then none
  else some (p.mul_body other)

/-- One character of `PauliString.from_str`'s parsing loop (case-insensitive;
`none` models the `ValueError` on a foreign character).  Returns the
`(z_bit, x_bit)` pair appended by the loop. -/
def charZX (c : Char) : Option (Bool × Bool) :=
  if c.toUpper = 'X' then some (false, true)
  else if c.toUpper = 'Y' then some (true, true)
  else if c.toUpper = 'Z' then some (true, false)
  else if c.toUpper = 'I' then some (false, false)
  else none

/-- A loop over a list that may raise: `none` as soon as `f` raises on an
element, otherwise the list of results in order. -/
def optionMap (f : α → Option β) : List α → Option (List β)
  | [] => some []
  | x :: xs =>
    match f x with
    | none => none
    | some y => (optionMap f xs).map (y :: ·)

/-- `PauliString.from_str`: iterates over `pauli_str[::-1]` (so index 0 of the
bit lists is the least-significant, i.e. rightmost, character), collecting
`z_bits` and `x_bits`; raises on a character outside {I,X,Y,Z} (any case). -/
def PauliString.from_str (pauli_str : List Char) : Option PauliString :=
  (optionMap charZX pauli_str.reverse).map
    (fun l => ⟨l.map Prod.fst, l.map Prod.snd⟩)

/-- The indexing `'IZXY'[z + 2*x]` of `PauliString.__str__`. -/
def pauliLabel (z x : Bool) : Char :=
  if x then (if z then 'Y' else 'X') else (if z then 'Z' else 'I')

/-- `PauliString.__str__`: the label of each qubit, most-significant qubit
first (the loop runs over `reversed(pauli_choices)`). -/
def PauliString.str (p : PauliString) : List Char :=
  (List.zipWith pauliLabel p.z_bits p.x_bits).reverse

/-- Non-strict lexicographic order on boolean rows, `false < true`: the row
order used by `np.unique(..., axis=0)`, and — via the `'0'/'1'` string keys,
which compare character-wise exactly like the underlying boolean lists — by
`sort`'s `np.argsort`. -/
def rowLe : List Bool → List Bool → Bool
  | [], _ => true
  | _ :: _, [] => false
  | a :: as, b :: bs => (!a && b) || (a == b && rowLe as bs)

/-- Strict lexicographic order on boolean rows, `false < true`. -/
def rowLt : List Bool → List Bool → Bool
  | [], [] => false
  | [], _ :: _ => true
  | _ :: _, [] => false
  | a :: as, b :: bs => (!a && b) || (a == b && rowLt as bs)

/-- `rowLe` as a proposition (for `List.insertionSort` and its lemmas). -/
def RowLe (a b : List Bool) : Prop := rowLe a b = true

instance : DecidableRel RowLe := fun a b => by
  unfold RowLe
  infer_instance

instance : IsTotal (List Bool) RowLe := ⟨fun a b => by
  unfold RowLe
  induction a generalizing b with
  | nil => left; rfl
  | cons x xs ih =>
    cases b with
    | nil => right; rfl
    | cons y ys => cases x <;> cases y <;> simp [rowLe] <;> exact ih ys⟩

instance : IsTrans (List Bool) RowLe := ⟨fun a b c hab hbc => by
  unfold RowLe at hab hbc ⊢
  induction a generalizing b c with
  | nil => rfl
  | cons x xs ih =>
    cases b with
    | nil => simp [rowLe] at hab
    | cons y ys =>
      cases c with
      | nil => simp [rowLe] at hbc
      | cons z zs =>
        cases x <;> cases y <;> cases z <;> simp [rowLe] at hab hbc ⊢ <;>
          exact ih _ _ hab hbc⟩

instance : IsAntisymm (List Bool) RowLe := ⟨fun a b hab hba => by
  unfold RowLe at hab hba
  induction a generalizing b with
  | nil =>
    cases b with
    | nil => rfl
    | cons y ys => simp [rowLe] at hba
  | cons x xs ih =>
    cases b with
    | nil => simp [rowLe] at hab
    | cons y ys =>
      cases x <;> cases y <;> simp [rowLe] at hab hba ⊢ <;> exact ih _ hab hba⟩

/-- `LinearCombinaisonPauliString.__init__` after its validation: the stored
coefficient and PauliString arrays (the stored `n_terms` and `n_qubits` are
the derived functions below). -/
structure LinearCombinaisonPauliString where
  coefs : List Cplx
  pauli_strings : List PauliString
deriving DecidableEq, Repr

/-- The stored `n_qubits = len(pauli_strings[0])`; on an empty term list the
source raises (`IndexError`), which `init` models, so the `0` branch is never
reached by a constructed instance. -/
def LinearCombinaisonPauliString.n_qubits (L : LinearCombinaisonPauliString) : ℕ :=
  match L.pauli_strings with
  | [] => 0
  | p :: _ => p.length

/-- `LinearCombinaisonPauliString.__init__`: raises (`ValueError`) when
`len(coefs) != len(pauli_strings)`; then reads `len(pauli_strings[0])`
(raising `IndexError` on an empty sequence); then raises (`ValueError`)
unless every PauliString has that same length. -/
def LinearCombinaisonPauliString.init (coefs : List Cplx) (pauli_strings : List PauliString) :
    Option LinearCombinaisonPauliString :=
  if coefs.length ≠ pauli_strings.length then none
  else
    match pauli_strings with
    | [] => none
    | p0 :: _ =>
      if pauli_strings.all (fun p => p.length == p0.length) then some ⟨coefs, pauli_strings⟩
      else none

/-- The invariant every constructed `LinearCombinaisonPauliString` enjoys
(see `init`), plus well-formedness of the member PauliStrings. -/
def LinearCombinaisonPauliString.wf (L : LinearCombinaisonPauliString) : Prop :=
  L.coefs.length = L.pauli_strings.length ∧ L.pauli_strings ≠ [] ∧
    ∀ p ∈ L.pauli_strings, p.wf ∧ p.length = L.n_qubits

instance (L : LinearCombinaisonPauliString) : Decidable L.wf := by
  unfold LinearCombinaisonPauliString.wf
  infer_instance

/-- `LinearCombinaisonPauliString.to_zx_bits`: the 2-d boolean table whose
row `i` is the zx-bits of PauliString `i`. -/
def LinearCombinaisonPauliString.to_zx_bits (L : LinearCombinaisonPauliString) :
    List (List Bool) :=
  L.pauli_strings.map PauliString.to_zx_bits

/-- `np.unique(rows, axis=0)`: the distinct rows in ascending lexicographic
order.  (Modelled as sort-then-dedup; see the header comment.) -/
def uniqueRows (rows : List (List Bool)) : List (List Bool) :=
  (List.insertionSort RowLe rows).dedup

/-- The boolean-mask selection `self.coefs[(old_pauli_strings == u).all(axis=1)]`:
the coefficients whose row equals `u`, in index order. -/
def matchingCoefs (rows : List (List Bool)) (coefs : List Cplx) (u : List Bool) : List Cplx :=
  (rows.zip coefs).filterMap (fun rc => if rc.1 = u then some rc.2 else none)

/-- `LinearCombinaisonPauliString.combine`: one term per distinct zx-row
(`np.unique` order), whose coefficient is the sum of the matching
coefficients; the PauliStrings are rebuilt with `from_zx_bits`. -/
def LinearCombinaisonPauliString.combine (L : LinearCombinaisonPauliString) :
    LinearCombinaisonPauliString :=
  let old_pauli_strings := L.to_zx_bits
  let new_pauli_strings_zx := uniqueRows old_pauli_strings
  ⟨new_pauli_strings_zx.map (fun u => sumC (matchingCoefs old_pauli_strings L.coefs u)),
   new_pauli_strings_zx.map PauliString.from_zx_bits⟩

/-- `sort`'s key for one PauliString:
`''.join((1*np.flip(bitstring)).astype(str))` — the *reversed* zx-bits as a
`'0'/'1'` string; two such equal-length strings compare exactly like the
reversed boolean lists under `rowLe`. -/
def sort_key (p : PauliString) : List Bool := p.to_zx_bits.reverse

/-- The key comparison of `sort`'s `np.argsort`, lifted to (coef, pauli)
pairs (argsort sorts indices; applying the index permutation to both arrays
is the same as sorting the zipped pairs by key). -/
def SortKeyLe (a b : Cplx × PauliString) : Prop := RowLe (sort_key a.2) (sort_key b.2)

instance : DecidableRel SortKeyLe := fun a b => by
  unfold SortKeyLe
  infer_instance

/-- `LinearCombinaisonPauliString.sort`: `order = np.argsort([keys])`,
result = `(coefs[order], pauli_strings[order])`. -/
def LinearCombinaisonPauliString.sort (L : LinearCombinaisonPauliString) :
    LinearCombinaisonPauliString :=
  let sorted := List.insertionSort SortKeyLe (L.coefs.zip L.pauli_strings)
  ⟨sorted.map Prod.fst, sorted.map Prod.snd⟩

/-- The argument of `LinearCombinaisonPauliString.mul_coef`: a single numeric
factor, or an array of factors (`np.ndarray`). -/
inductive CoefFactor where
  | scalar (c : Cplx)
  | arr (cs : List Cplx)
deriving DecidableEq, Repr

/-- `LinearCombinaisonPauliString.mul_coef`: for an array argument, raises
(`ValueError`) unless its length equals `len(self)` (= the number of
PauliStrings), then multiplies coefficients elementwise; a scalar multiplies
every coefficient.  The PauliStrings are passed through unchanged. -/
def LinearCombinaisonPauliString.mul_coef (L : LinearCombinaisonPauliString) :
    CoefFactor → Option LinearCombinaisonPauliString
  | .scalar c => some ⟨L.coefs.map (· * c), L.pauli_strings⟩
  | .arr cs =>
    if cs.length ≠ L.pauli_strings.length then none
    else some ⟨List.zipWith (· * ·) L.coefs cs, L.pauli_strings⟩

/-- `LinearCombinaisonPauliString.mul_linear_combinaison_pauli_string`:
raises (`ValueError`) when the qubit counts differ; otherwise, for every
ordered pair (term `i` of `self`, term `j` of `other`), the result's term
`i*len(other)+j` is `pauli_i * pauli_j` with coefficient
`coefs_i * coefs_j * phase` (the nested `optionMap`/`join` lays the terms
out exactly in that order). -/
def LinearCombinaisonPauliString.mul_linear_combinaison_pauli_string
    (A B : LinearCombinaisonPauliString) : Option LinearCombinaisonPauliString :=
  if A.n_qubits ≠ B.n_qubits then none
  else
    (optionMap (fun ta : Cplx × PauliString =>
        optionMap (fun tb : Cplx × PauliString =>
            (PauliString.mul_pauli_string ta.2 tb.2).map (fun r => (ta.1 * tb.1 * r.2, r.1)))
          (B.coefs.zip B.pauli_strings))
      (A.coefs.zip A.pauli_strings)).map
      (fun rows => ⟨rows.flatten.map Prod.fst, rows.flatten.map Prod.snd⟩)

/-- `LinearCombinaisonPauliString.divide_in_bitwise_commuting_cliques`: the
source body is `raise NotImplementedError()` before its `return`, on every
input (lines 645–666). -/
def LinearCombinaisonPauliString.divide_in_bitwise_commuting_cliques
    (_L : LinearCombinaisonPauliString) : Option (List LinearCombinaisonPauliString) :=
  none

/-- The 1-qubit Pauli `I`. -/
def psI : PauliString := ⟨[false], [false]⟩

/-- The 1-qubit Pauli `X`. -/
def psX : PauliString := ⟨[false], [true]⟩

/-- The 1-qubit Pauli `Y`. -/
def psY : PauliString := ⟨[true], [true]⟩

/-- The 1-qubit Pauli `Z`. -/
def psZ : PauliString := ⟨[true], [false]⟩

/-- The 2-qubit Pauli `"II"`. -/
def psII : PauliString := ⟨[false, false], [false, false]⟩

/-- The 2-qubit Pauli `"XZ"` (`X` on qubit 1, `Z` on qubit 0). -/
def psXZ : PauliString := ⟨[true, false], [false, true]⟩

/-- The input of the spec's `combine` example: `[(1,"XZ"), (2,"XZ"), (3,"II")]`. -/
def lcC7 : LinearCombinaisonPauliString := ⟨[1, 2, 3], [psXZ, psXZ, psII]⟩

/-- A one-term 2-qubit combination `[(2, "II")]`. -/
def lcII2 : LinearCombinaisonPauliString := ⟨[2], [psII]⟩

/-- A 1-qubit linear combination with one term each of I, X, Y, Z (the
coefficients 1, 2, 3, 4 only track where each term moves). -/
def lcIXYZ : LinearCombinaisonPauliString := ⟨[1, 2, 3, 4], [psI, psX, psY, psZ]⟩

/-! ## Sanity examples (concrete evaluation of the embedding) -/

example : psX.mul_pauli_string psY = some (psZ, Cplx.I) := by decide
example : psY.mul_pauli_string psZ = some (psX, Cplx.I) := by decide
example : psZ.mul_pauli_string psX = some (psY, Cplx.I) := by decide
example : psX.mul_pauli_string psX = some (psI, 1) := by decide
example : psY.mul_pauli_string psY = some (psI, 1) := by decide
example : psZ.mul_pauli_string psZ = some (psI, 1) := by decide
example : lcC7.combine = ⟨[3, 3], [psII, psXZ]⟩ := by decide
example : lcIXYZ.sort = ⟨[1, 4, 2, 3], [psI, psZ, psX, psY]⟩ := by decide
example : PauliString.from_str ['X', 'Z'] = some psXZ := by decide
example : psXZ.str = ['X', 'Z'] := by decide

/-! ## Helper lemmas -/

theorem Cplx.add_def (a b : Cplx) : a + b = ⟨a.re + b.re, a.im + b.im⟩ := rfl

theorem Cplx.zero_re_eq : (0 : Cplx).re = 0 := rfl

theorem Cplx.zero_im_eq : (0 : Cplx).im = 0 := rfl

theorem Cplx.zero_add_eq (a : Cplx) : (0 : Cplx) + a = a := by
  cases a
  simp [Cplx.add_def, Cplx.zero_re_eq, Cplx.zero_im_eq]

theorem sumC_singleton (c : Cplx) : sumC [c] = c := by
  simp [sumC, Cplx.zero_add_eq]

theorem rowLt_iff (a b : List Bool) :
    rowLt a b = true ↔ rowLe a b = true ∧ a ≠ b := by
  induction a generalizing b with
  | nil =>
    cases b with
    | nil => simp [rowLt, rowLe]
    | cons y ys => simp [rowLt, rowLe]
  | cons x xs ih =>
    cases b with
    | nil => simp [rowLt, rowLe]
    | cons y ys =>
      cases x <;> cases y <;> simp [rowLt, rowLe, ih]

theorem charZX_pauliLabel (z x : Bool) : charZX (pauliLabel z x) = some (z, x) := by
  cases z <;> cases x <;> decide

theorem optionMap_charZX_labels :
    ∀ (z x : List Bool), optionMap charZX (List.zipWith pauliLabel z x) = some (z.zip x)
  | [], _ => rfl
  | _ :: _, [] => rfl
  | a :: z, b :: x => by
    simp [optionMap, charZX_pauliLabel, optionMap_charZX_labels z x, List.zip_cons_cons]

theorem from_str_wf {s : List Char} {p : PauliString}
    (h : PauliString.from_str s = some p) : p.wf := by
  unfold PauliString.from_str at h
  rw [Option.map_eq_some'] at h
  obtain ⟨l, -, rfl⟩ := h
  simp [PauliString.wf]

theorem from_str_str {p : PauliString} (h : p.wf) :
    PauliString.from_str p.str = some p := by
  obtain ⟨z, x⟩ := p
  have hlen : z.length = x.length := h
  unfold PauliString.from_str PauliString.str
  rw [List.reverse_reverse, optionMap_charZX_labels]
  simp [List.map_fst_zip z x (le_of_eq hlen), List.map_snd_zip z x (le_of_eq hlen.symm)]

theorem optionMap_eq_some_map {f : α → Option β} {g : α → β} (l : List α)
    (h : ∀ x ∈ l, f x = some (g x)) : optionMap f l = some (l.map g) := by
  induction l with
  | nil => rfl
  | cons x xs ih =>
    have hx := h x (List.mem_cons_self x xs)
    simp [optionMap, hx, ih (fun y hy => h y (List.mem_cons_of_mem _ hy))]

theorem flatten_length_uniform {β : Type} (m : ℕ) (rows : List (List β))
    (h : ∀ r ∈ rows, r.length = m) : rows.flatten.length = rows.length * m := by
  induction rows with
  | nil => simp
  | cons r rest ih =>
    have hr : r.length = m := h r (List.mem_cons_self r rest)
    have hrest := ih (fun s hs => h s (List.mem_cons_of_mem _ hs))
    simp [hr, hrest, Nat.succ_mul, Nat.add_comm]

theorem flatten_index {β : Type} (m : ℕ) (rows : List (List β)) (i j : ℕ)
    (h : ∀ r ∈ rows, r.length = m) (hj : j < m) :
    rows.flatten[i * m + j]? = (rows[i]?).bind (fun r => r[j]?) := by
  induction rows generalizing i with
  | nil => simp
  | cons r rest ih =>
    have hr : r.length = m := h r (List.mem_cons_self r rest)
    cases i with
    | zero =>
      simp only [Nat.zero_mul, Nat.zero_add, List.flatten_cons]
      rw [List.getElem?_append, if_pos (by rw [hr]; exact hj)]
      simp
    | succ k =>
      have harith : (k + 1) * m + j = r.length + (k * m + j) := by rw [hr]; ring
      rw [List.flatten_cons, harith, List.getElem?_append_right (by omega)]
      rw [Nat.add_sub_cancel_left]
      rw [ih k (fun s hs => h s (List.mem_cons_of_mem _ hs))]
      simp

theorem mul_pauli_string_eq_body {p q : PauliString} (h : p.length = q.length) :
    p.mul_pauli_string q = some (p.mul_body q) := by
  simp [PauliString.mul_pauli_string, h]

theorem to_zx_from_zx (u : List Bool) :
    (PauliString.from_zx_bits u).to_zx_bits = u := by
  simp [PauliString.from_zx_bits, PauliString.to_zx_bits]

theorem combine_to_zx (L : LinearCombinaisonPauliString) :
    L.combine.to_zx_bits = uniqueRows L.to_zx_bits := by
  have h : L.combine.pauli_strings
      = (uniqueRows L.to_zx_bits).map PauliString.from_zx_bits := rfl
  rw [LinearCombinaisonPauliString.to_zx_bits, h, List.map_map]
  rw [show PauliString.to_zx_bits ∘ PauliString.from_zx_bits = id from funext to_zx_from_zx]
  exact List.map_id _

theorem uniqueRows_nodup (rows : List (List Bool)) : (uniqueRows rows).Nodup :=
  List.nodup_dedup _

theorem mem_uniqueRows {u : List Bool} {rows : List (List Bool)} :
    u ∈ uniqueRows rows ↔ u ∈ rows := by
  rw [uniqueRows, List.mem_dedup, List.mem_insertionSort]

theorem uniqueRows_sorted (rows : List (List Bool)) : (uniqueRows rows).Pairwise RowLe :=
  List.Pairwise.sublist (List.dedup_sublist _) (List.sorted_insertionSort RowLe rows)

theorem uniqueRows_pairwise_lt (rows : List (List Bool)) :
    (uniqueRows rows).Pairwise (fun a b => rowLt a b = true) := by
  have h1 := uniqueRows_sorted rows
  have h2 : (uniqueRows rows).Pairwise (· ≠ ·) := uniqueRows_nodup rows
  exact (h1.and h2).imp (fun hab => (rowLt_iff _ _).2 hab)

theorem uniqueRows_idem (rows : List (List Bool)) :
    uniqueRows (uniqueRows rows) = uniqueRows rows := by
  rw [uniqueRows, List.Sorted.insertionSort_eq (uniqueRows_sorted rows)]
  exact List.dedup_eq_self.2 (uniqueRows_nodup rows)

theorem matchingCoefs_nil (cs : List Cplx) (u : List Bool) :
    matchingCoefs [] cs u = [] := rfl

theorem matchingCoefs_cons (k : List Bool) (ks : List (List Bool)) (c : Cplx)
    (cs : List Cplx) (u : List Bool) :
    matchingCoefs (k :: ks) (c :: cs) u
      = if k = u then c :: matchingCoefs ks cs u else matchingCoefs ks cs u := by
  by_cases h : k = u
  · simp [matchingCoefs, List.zip_cons_cons, List.filterMap_cons, h]
  · simp [matchingCoefs, List.zip_cons_cons, List.filterMap_cons, h]

theorem matchingCoefs_of_not_mem {ks : List (List Bool)} {u : List Bool}
    (h : u ∉ ks) : ∀ cs : List Cplx, matchingCoefs ks cs u = [] := by
  induction ks with
  | nil => intro cs; exact matchingCoefs_nil cs u
  | cons k ks' ih =>
    intro cs
    cases cs with
    | nil => simp [matchingCoefs]
    | cons c cs' =>
      have hk : ¬(k = u) := fun hh => h (hh ▸ List.mem_cons_self _ _)
      rw [matchingCoefs_cons, if_neg hk]
      exact ih (fun hu => h (List.mem_cons_of_mem _ hu)) cs'

theorem matchingCoefs_map_self {ks : List (List Bool)} (f : List Bool → Cplx)
    (hn : ks.Nodup) {u : List Bool} (hu : u ∈ ks) :
    matchingCoefs ks (ks.map f) u = [f u] := by
  induction ks with
  | nil => cases hu
  | cons k ks' ih =>
    rw [List.nodup_cons] at hn
    rw [List.map_cons, matchingCoefs_cons]
    rcases List.mem_cons.1 hu with rfl | hu'
    · rw [if_pos rfl, matchingCoefs_of_not_mem hn.1]
    · have hk : ¬(k = u) := fun hh => hn.1 (hh ▸ hu')
      rw [if_neg hk]
      exact ih hn.2 hu'

theorem lcps_ext {a b : LinearCombinaisonPauliString}
    (h1 : a.coefs = b.coefs) (h2 : a.pauli_strings = b.pauli_strings) : a = b := by
  cases a
  cases b
  dsimp only at h1 h2
  subst h1
  subst h2
  rfl

theorem combine_coefs (L : LinearCombinaisonPauliString) :
    L.combine.coefs = (uniqueRows L.to_zx_bits).map
      (fun u => sumC (matchingCoefs L.to_zx_bits L.coefs u)) := rfl

theorem combine_pauli_strings (L : LinearCombinaisonPauliString) :
    L.combine.pauli_strings = (uniqueRows L.to_zx_bits).map PauliString.from_zx_bits := rfl

theorem combine_idem (L : LinearCombinaisonPauliString) :
    L.combine.combine = L.combine := by
  apply lcps_ext
  · rw [combine_coefs L.combine, combine_to_zx, uniqueRows_idem, combine_coefs L]
    apply List.map_congr_left
    intro u hu
    rw [matchingCoefs_map_self _ (uniqueRows_nodup _) hu, sumC_singleton]
  · rw [combine_pauli_strings L.combine, combine_to_zx, uniqueRows_idem,
      combine_pauli_strings L]

/-! ## Claim theorems -/

/-- C1: for PauliStrings of equal qubit count, `multiply` returns the
PauliString with `new_z = z1 xor z2`, `new_x = x1 xor x2` and the phase
`(−i)^w` with `w = (2·Σ(z2·x1) + Σ(z1·x1) + Σ(z2·x2) − Σ(new_z·new_x)) mod 4`;
on length-1 PauliStrings, `X*Y = iZ`, `Y*Z = iX`, `Z*X = iY`, and `X*X`,
`Y*Y`, `Z*Z` each yield `I` with phase exactly 1. -/
theorem claim_C1_mul_pauli_string :
    (∀ p1 p2 : PauliString, p1.length = p2.length →
      p1.mul_pauli_string p2 =
        some (⟨List.zipWith Bool.xor p1.z_bits p2.z_bits,
               List.zipWith Bool.xor p1.x_bits p2.x_bits⟩,
          phaseOfW (2 * (andCount p2.z_bits p1.x_bits : ℤ) + (andCount p1.z_bits p1.x_bits : ℤ)
            + (andCount p2.z_bits p2.x_bits : ℤ)
            - (andCount (List.zipWith Bool.xor p1.z_bits p2.z_bits)
                (List.zipWith Bool.xor p1.x_bits p2.x_bits) : ℤ)))) ∧
    psX.mul_pauli_string psY = some (psZ, Cplx.I) ∧
    psY.mul_pauli_string psZ = some (psX, Cplx.I) ∧
    psZ.mul_pauli_string psX = some (psY, Cplx.I) ∧
    psX.mul_pauli_string psX = some (psI, 1) ∧
    psY.mul_pauli_string psY = some (psI, 1) ∧
    psZ.mul_pauli_string psZ = some (psI, 1) := by
  refine ⟨fun p1 p2 h => ?_, by decide, by decide, by decide, by decide, by decide, by decide⟩
  simp [PauliString.mul_pauli_string, h, PauliString.mul_body, phaseOfW]

/-- Witness for C1's general conjunct, at the concrete input `X`, `Y`. -/
theorem claim_C1_witness :
    psX.mul_pauli_string psY =
      some (⟨List.zipWith Bool.xor psX.z_bits psY.z_bits,
             List.zipWith Bool.xor psX.x_bits psY.x_bits⟩,
        phaseOfW (2 * (andCount psY.z_bits psX.x_bits : ℤ) + (andCount psX.z_bits psX.x_bits : ℤ)
          + (andCount psY.z_bits psY.x_bits : ℤ)
          - (andCount (List.zipWith Bool.xor psX.z_bits psY.z_bits)
              (List.zipWith Bool.xor psX.x_bits psY.x_bits) : ℤ))) :=
  claim_C1_mul_pauli_string.1 psX psY rfl

/-- C2: `combine` has exactly one term per distinct zx-bit pattern occurring
in the input (no duplicates, and a pattern appears in the output iff it
appears in the input), the distinct patterns appear in ascending (strict
lexicographic) bit-pattern order, each output coefficient is the sum of all
input coefficients whose term shares that pattern, and `combine` is
idempotent: `combine (combine L) = combine L` exactly. -/
theorem claim_C2_combine (L : LinearCombinaisonPauliString) :
    L.combine.to_zx_bits.Nodup ∧
    (∀ u, u ∈ L.combine.to_zx_bits ↔ u ∈ L.to_zx_bits) ∧
    L.combine.to_zx_bits.Pairwise (fun a b => rowLt a b = true) ∧
    L.combine.coefs.length = L.combine.to_zx_bits.length ∧
    (∀ i : ℕ, L.combine.coefs[i]? =
      (L.combine.to_zx_bits[i]?).map (fun u => sumC (matchingCoefs L.to_zx_bits L.coefs u))) ∧
    L.combine.combine = L.combine := by
  refine ⟨?_, ?_, ?_, ?_, ?_, combine_idem L⟩
  · rw [combine_to_zx]
    exact uniqueRows_nodup _
  · intro u
    rw [combine_to_zx, mem_uniqueRows]
  · rw [combine_to_zx]
    exact uniqueRows_pairwise_lt _
  · rw [combine_coefs, combine_to_zx, List.length_map]
  · intro i
    rw [combine_coefs, combine_to_zx, List.getElem?_map]

/-- C5: round-trips of the encodings: `from_zx_bits (to_zx_bits p) = p` for
every (well-formed) PauliString, and for every label string `s` over
{I,X,Y,Z} (case-insensitive), parsing the label string printed from
`from_str s` returns `from_str s` again. -/
theorem claim_C5_roundtrip :
    (∀ p : PauliString, p.wf → PauliString.from_zx_bits p.to_zx_bits = p) ∧
    (∀ (s : List Char) (p : PauliString), PauliString.from_str s = some p →
      PauliString.from_str p.str = some p) := by
  constructor
  · intro p h
    obtain ⟨z, x⟩ := p
    have hlen : z.length = x.length := h
    unfold PauliString.from_zx_bits PauliString.to_zx_bits
    have h2 : (z ++ x).length / 2 = z.length := by
      simp [List.length_append, hlen]
      omega
    simp only [h2]
    rw [List.take_left, List.drop_left]
  · intro s p h
    exact from_str_str (from_str_wf h)

/-- Witness for C5 at the 2-qubit Pauli `"XZ"` (parsed from the lowercase
label string `"xz"`). -/
theorem claim_C5_witness :
    PauliString.from_zx_bits psXZ.to_zx_bits = psXZ ∧
    PauliString.from_str psXZ.str = some psXZ :=
  ⟨claim_C5_roundtrip.1 psXZ (by decide),
   claim_C5_roundtrip.2 ['x', 'z'] psXZ (by decide)⟩

/-- C3: the claim asks `divideIntoBitwiseCommutingCliques` to return a
bitwise-commuting partition of the terms and never raise
`NotImplementedError`; the source's body is `raise NotImplementedError()`
on every input (here: the result is `none` on every input, in particular on
the concrete 2-qubit combination `lcC7`). -/
theorem claim_C3_divide_raises :
    lcC7.divide_in_bitwise_commuting_cliques = none ∧
    ∀ L : LinearCombinaisonPauliString, L.divide_in_bitwise_commuting_cliques = none :=
  ⟨rfl, fun _ => rfl⟩

/-- C4: the claim (and the source's own docstring, `I<X<Y<Z`) says sorting a
1-qubit combination with one term each of I, X, Y, Z yields the order
I, X, Y, Z.  The implemented key — ascending lexicographic order of the
*reversed* zx-bits — actually yields I("00") < Z("01") < X("10") < Y("11"),
so `sort` returns the order I, Z, X, Y and not the claimed order. -/
theorem claim_C4_sort_example :
    lcIXYZ.sort = ⟨[1, 4, 2, 3], [psI, psZ, psX, psY]⟩ ∧
    lcIXYZ.sort ≠ ⟨[1, 2, 3, 4], [psI, psX, psY, psZ]⟩ := by
  exact ⟨by decide, by decide⟩

/-- C7 counterexample: `combine` on `[(1,"XZ"), (2,"XZ"), (3,"II")]` does
*not* return `[(3,"XZ"), (3,"II")]` in that order (ascending zx-bit-pattern
order puts `II` = 0000 before `XZ` = 1001). -/
theorem claim_C7_counterexample :
    lcC7.combine ≠ ⟨[3, 3], [psXZ, psII]⟩ := by
  decide

/-- C7 amended: `combine` on `[(1,"XZ"), (2,"XZ"), (3,"II")]` yields exactly
the two-term combination `[(3,"II"), (3,"XZ")]`, in that order (the distinct
patterns in ascending bit-pattern order). -/
theorem claim_C7_combine_example :
    lcC7.combine = ⟨[3, 3], [psII, psXZ]⟩ := by
  decide

/-- C6: for combinations with equal qubit count, `multiply` has exactly
`len(A)*len(B)` terms, and the term at index `i*len(B)+j` is the product
string of A's i-th and B's j-th PauliStrings with coefficient
`coef_A_i * coef_B_j * phase`, where `(product string, phase)` is what
`pauli_A_i.multiply(pauli_B_j)` returns. -/
theorem claim_C6_mul_lcps (A B : LinearCombinaisonPauliString)
    (hA : A.wf) (hB : B.wf) (hq : A.n_qubits = B.n_qubits) :
    ∃ R, A.mul_linear_combinaison_pauli_string B = some R ∧
      R.coefs.length = A.pauli_strings.length * B.pauli_strings.length ∧
      R.pauli_strings.length = A.pauli_strings.length * B.pauli_strings.length ∧
      ∀ i j ci pi cj pj,
        A.coefs[i]? = some ci → A.pauli_strings[i]? = some pi →
        B.coefs[j]? = some cj → B.pauli_strings[j]? = some pj →
        ∃ pp ph, pi.mul_pauli_string pj = some (pp, ph) ∧
          R.coefs[i * B.pauli_strings.length + j]? = some (ci * cj * ph) ∧
          R.pauli_strings[i * B.pauli_strings.length + j]? = some pp := by
  obtain ⟨hlenA, -, hmemA⟩ := hA
  obtain ⟨hlenB, -, hmemB⟩ := hB
  have hzA : (A.coefs.zip A.pauli_strings).length = A.pauli_strings.length := by
    simp [List.length_zip, hlenA]
  have hzB : (B.coefs.zip B.pauli_strings).length = B.pauli_strings.length := by
    simp [List.length_zip, hlenB]
  have hinner : ∀ ta ∈ A.coefs.zip A.pauli_strings,
      optionMap (fun tb : Cplx × PauliString =>
          (PauliString.mul_pauli_string ta.2 tb.2).map (fun r => (ta.1 * tb.1 * r.2, r.1)))
        (B.coefs.zip B.pauli_strings)
      = some ((B.coefs.zip B.pauli_strings).map (fun tb =>
          (ta.1 * tb.1 * (ta.2.mul_body tb.2).2, (ta.2.mul_body tb.2).1))) := by
    intro ta hta
    apply optionMap_eq_some_map
    intro tb htb
    have h1 : ta.2 ∈ A.pauli_strings := (List.of_mem_zip hta).2
    have h2 : tb.2 ∈ B.pauli_strings := (List.of_mem_zip htb).2
    have hlen : ta.2.length = tb.2.length := by
      rw [(hmemA _ h1).2, (hmemB _ h2).2, hq]
    rw [mul_pauli_string_eq_body hlen]
    rfl
  have houter := optionMap_eq_some_map (A.coefs.zip A.pauli_strings) hinner
  have hrows_uniform : ∀ row ∈ (A.coefs.zip A.pauli_strings).map (fun ta =>
      (B.coefs.zip B.pauli_strings).map (fun tb =>
        (ta.1 * tb.1 * (ta.2.mul_body tb.2).2, (ta.2.mul_body tb.2).1))),
      row.length = B.pauli_strings.length := by
    intro row hrow
    obtain ⟨ta, -, rfl⟩ := List.mem_map.1 hrow
    simp [hzB]
  have hflatlen := flatten_length_uniform B.pauli_strings.length _ hrows_uniform
  unfold LinearCombinaisonPauliString.mul_linear_combinaison_pauli_string
  rw [if_neg (by simp [hq]), houter, Option.map_some']
  refine ⟨_, rfl, ?_, ?_, ?_⟩
  · rw [List.length_map, hflatlen, List.length_map, hzA]
  · rw [List.length_map, hflatlen, List.length_map, hzA]
  · intro i j ci pi cj pj h1 h2 h3 h4
    have hij : (A.coefs.zip A.pauli_strings)[i]? = some (ci, pi) := by
      rw [List.getElem?_zip_eq_some]
      exact ⟨h1, h2⟩
    have hjj : (B.coefs.zip B.pauli_strings)[j]? = some (cj, pj) := by
      rw [List.getElem?_zip_eq_some]
      exact ⟨h3, h4⟩
    have hjlt : j < B.pauli_strings.length := by
      by_contra hc
      push_neg at hc
      rw [List.getElem?_eq_none (by rw [hzB]; exact hc)] at hjj
      exact absurd hjj (by simp)
    have hpi : pi ∈ A.pauli_strings := List.getElem?_mem h2
    have hpj : pj ∈ B.pauli_strings := List.getElem?_mem h4
    have hlen : pi.length = pj.length := by
      rw [(hmemA _ hpi).2, (hmemB _ hpj).2, hq]
    refine ⟨(pi.mul_body pj).1, (pi.mul_body pj).2, ?_, ?_, ?_⟩
    · rw [mul_pauli_string_eq_body hlen]
    · rw [List.getElem?_map,
        flatten_index B.pauli_strings.length _ i j hrows_uniform hjlt,
        List.getElem?_map, hij]
      simp only [Option.map_some', Option.some_bind, List.getElem?_map, hjj]
    · rw [List.getElem?_map,
        flatten_index B.pauli_strings.length _ i j hrows_uniform hjlt,
        List.getElem?_map, hij]
      simp only [Option.map_some', Option.some_bind, List.getElem?_map, hjj]

/-- Witness for C6 at the concrete combinations `lcC7` (3 terms) and `lcII2`
(1 term), both over 2 qubits. -/
theorem claim_C6_witness :
    ∃ R, lcC7.mul_linear_combinaison_pauli_string lcII2 = some R ∧
      R.coefs.length = lcC7.pauli_strings.length * lcII2.pauli_strings.length ∧
      R.pauli_strings.length = lcC7.pauli_strings.length * lcII2.pauli_strings.length ∧
      ∀ i j ci pi cj pj,
        lcC7.coefs[i]? = some ci → lcC7.pauli_strings[i]? = some pi →
        lcII2.coefs[j]? = some cj → lcII2.pauli_strings[j]? = some pj →
        ∃ pp ph, pi.mul_pauli_string pj = some (pp, ph) ∧
          R.coefs[i * lcII2.pauli_strings.length + j]? = some (ci * cj * ph) ∧
          R.pauli_strings[i * lcII2.pauli_strings.length + j]? = some pp :=
  claim_C6_mul_lcps lcC7 lcII2 (by decide) (by decide) (by decide)

/-- C8: `mul_coef` with an array factor of any length other than the number
of terms raises; an array of exactly that length is applied elementwise;
a single scalar is applied to every coefficient. -/
theorem claim_C8_mul_coef (L : LinearCombinaisonPauliString) :
    (∀ cs : List Cplx, cs.length ≠ L.pauli_strings.length → L.mul_coef (.arr cs) = none) ∧
    (∀ cs : List Cplx, cs.length = L.pauli_strings.length →
      L.mul_coef (.arr cs) = some ⟨List.zipWith (· * ·) L.coefs cs, L.pauli_strings⟩) ∧
    (∀ c : Cplx, L.mul_coef (.scalar c) = some ⟨L.coefs.map (· * c), L.pauli_strings⟩) := by
  refine ⟨fun cs h => ?_, fun cs h => ?_, fun c => rfl⟩
  · simp [LinearCombinaisonPauliString.mul_coef, h]
  · simp [LinearCombinaisonPauliString.mul_coef, h]

/-- Witness for C8 at the concrete combination `lcC7` (3 terms): a length-2
array raises, a length-3 array multiplies elementwise, a scalar multiplies
every coefficient. -/
theorem claim_C8_witness :
    lcC7.mul_coef (.arr [1, 1]) = none ∧
    lcC7.mul_coef (.arr [1, 1, 1]) =
      some ⟨List.zipWith (· * ·) lcC7.coefs [1, 1, 1], lcC7.pauli_strings⟩ ∧
    lcC7.mul_coef (.scalar 2) = some ⟨lcC7.coefs.map (· * 2), lcC7.pauli_strings⟩ :=
  ⟨(claim_C8_mul_coef lcC7).1 [1, 1] (by decide),
   (claim_C8_mul_coef lcC7).2.1 [1, 1, 1] (by decide),
   (claim_C8_mul_coef lcC7).2.2 2⟩

/-- C10: the constructor fails on empty coefficient/PauliString sequences
(it reads `pauli_strings[0]`) although the two lengths match, and every
successfully constructed combination has at least one term. -/
theorem claim_C10_init_nonempty :
    LinearCombinaisonPauliString.init [] [] = none ∧
    ∀ (coefs : List Cplx) (pauli_strings : List PauliString)
      (L : LinearCombinaisonPauliString),
      LinearCombinaisonPauliString.init coefs pauli_strings = some L →
      L.pauli_strings ≠ [] := by
  refine ⟨rfl, fun coefs ps L h => ?_⟩
  unfold LinearCombinaisonPauliString.init at h
  split at h
  · exact absurd h (by simp)
  · split at h
    · exact absurd h (by simp)
    · split at h
      · cases h
        simp
      · exact absurd h (by simp)

/-- Witness for C10's second conjunct, at the concrete one-term input. -/
theorem claim_C10_witness :
    (⟨[1], [psI]⟩ : LinearCombinaisonPauliString).pauli_strings ≠ [] :=
  claim_C10_init_nonempty.2 [1] [psI] ⟨[1], [psI]⟩ (by decide)
